import Mathlib

/-!
# Broadcast hub of `main.go`

A shallow embedding of the event hub (`Event`, `NewServer`, `Event.listen`) and of the
registration discipline of `Event.serveHTTP`.

* A value of Go type `chan string` is either the nil channel or a reference to a channel
  object created by `make`; client channels are unbuffered.
* `Event.TotalClients` is a `map[chan string]bool` whose stored values are always `true`;
  it is represented by the list of its keys (no key twice).
* The three channels `NewClients`, `ClosedClients` and `Message` read by the `select` of
  `listen` are represented by the sequence of values the `select` receives, in the order
  in which the worker takes them.
* What Go leaves to the runtime is a parameter: the order in which `range` visits the keys
  of the map, and whether the consumer of a client channel is receiving when the worker
  sends to it.
* The effect of `log.Printf` is not modelled.
-/

namespace IoTManager

/-- Value of Go type `chan string` (`ClientChan`): nil, or a channel object made by `make`. -/
inductive ClientChan where
  | nil : ClientChan
  | ref (id : Nat) : ClientChan
  deriving DecidableEq, Repr

/-- State of the hub. `TotalClients` is the key set of the Go map. `closed` lists the
channel objects on which `close` has been executed, and `delivered` records every completed
send `clientMessageChan <- eventMsg`, oldest first. -/
structure Event where
  TotalClients : List ClientChan
  closed : List Nat
  delivered : List (Nat × String)
  deriving DecidableEq, Repr

/-- One value taken by the `select` of `listen`, tagged with the channel it came from. -/
inductive Select where
  | NewClients (client : ClientChan) : Select
  | ClosedClients (client : ClientChan) : Select
  | Message (eventMsg : String) : Select
  deriving DecidableEq, Repr

/-- What the Go runtime decides: the order in which the `range` executed while handling
the `k`-th received value visits the keys of the map (every key exactly once), and whether
the consumer of channel `id` receives the value sent to it during that step. -/
structure Runtime where
  rangeOrder : Nat → List ClientChan → List ClientChan
  rangeOrder_perm : ∀ k l, (rangeOrder k l).Perm l
  receiving : Nat → Nat → Bool

/-- How the worker goroutine stands after handling received values: still looping, dead
from a run-time panic, or parked forever in a send. The state is the one at that point. -/
inductive Outcome where
  | ok (s : Event) : Outcome
  | panic (s : Event) : Outcome
  | blocked (s : Event) : Outcome
  deriving DecidableEq, Repr

/-- The hub state carried by an outcome. -/
def Outcome.state : Outcome → Event
  | .ok s => s
  | .panic s => s
  | .blocked s => s

/-- Go map assignment `m[key] = true` on the key set. -/
def mapSet (key : ClientChan) (m : List ClientChan) : List ClientChan :=
  if key ∈ m then m else m ++ [key]

/-- Go builtin `delete(m, key)` on the key set: no effect when the key is absent. -/
def mapDelete (key : ClientChan) (m : List ClientChan) : List ClientChan :=
  m.erase key

/-- Go builtin `close(c)`: panics (`none`) on the nil channel and on a closed channel,
otherwise marks the channel closed. -/
def chanClose (closed : List Nat) : ClientChan → Option (List Nat)
  | .nil => none
  | .ref id => if id ∈ closed then none else some (id :: closed)

/-- Result of a send statement on an unbuffered channel. -/
inductive Send where
  | done (id : Nat) : Send
  | blocks : Send
  | panics : Send
  deriving DecidableEq, Repr

/-- Go send `c <- v` on an unbuffered channel: blocks forever on the nil channel, panics on
a closed channel, completes when a receiver takes the value, blocks otherwise. -/
def chanSend (closed : List Nat) (recv : Nat → Bool) : ClientChan → Send
  | .nil => .blocks
  | .ref id => if id ∈ closed then .panics else if recv id then .done id else .blocks

/-- The loop `for clientMessageChan := range stream.TotalClients { clientMessageChan <- eventMsg }`
over the keys in the order chosen by the runtime. -/
def broadcast (recv : Nat → Bool) (eventMsg : String) : List ClientChan → Event → Outcome
  | [], s => .ok s
  | c :: rest, s =>
    match chanSend s.closed recv c with
    | .done id =>
      broadcast recv eventMsg rest { s with delivered := s.delivered ++ [(id, eventMsg)] }
    | .blocks => .blocked s
    | .panics => .panic s

/-- One iteration of the `for { select { ... } }` of `listen`, handling the `k`-th value. -/
def listenStep (rt : Runtime) (k : Nat) (stream : Event) : Select → Outcome
  | .NewClients client =>
    .ok { stream with TotalClients := mapSet client stream.TotalClients }
  | .ClosedClients client =>
    let stream1 := { stream with TotalClients := mapDelete client stream.TotalClients }
    match chanClose stream1.closed client with
    | none => .panic stream1
    | some closed1 => .ok { stream1 with closed := closed1 }
  | .Message eventMsg =>
    broadcast (rt.receiving k) eventMsg (rt.rangeOrder k stream.TotalClients) stream

/-- The worker `listen` run on the values `evs`, the first of them being the `k`-th. A panic
or a send that never completes ends the processing. -/
def listen (rt : Runtime) : Nat → Event → List Select → Outcome
  | _, stream, [] => .ok stream
  | k, stream, e :: evs =>
    match listenStep rt k stream e with
    | .ok stream1 => listen rt (k + 1) stream1 evs
    | .panic stream1 => .panic stream1
    | .blocked stream1 => .blocked stream1

/-- The hub made by `NewServer`: empty map, no client channel closed, nothing delivered. -/
def NewServer : Event :=
  { TotalClients := [], closed := [], delivered := [] }

/-- Messages received on channel `id`, oldest first. -/
def received (s : Event) (id : Nat) : List String :=
  (s.delivered.filter (fun p => p.1 == id)).map Prod.snd

/-- A runtime whose `range` visits keys in insertion order and whose consumers all receive. -/
def promptRuntime : Runtime :=
  { rangeOrder := fun _ l => l
    rangeOrder_perm := fun _ l => List.Perm.refl l
    receiving := fun _ _ => true }

/-- A runtime whose `range` visits keys in insertion order and in which only the consumers
accepted by `live` receive. -/
def runtimeOf (live : Nat → Bool) : Runtime :=
  { rangeOrder := fun _ l => l
    rangeOrder_perm := fun _ l => List.Perm.refl l
    receiving := fun _ id => live id }

/-- Channels received from `NewClients`, oldest first. -/
def registers : List Select → List ClientChan
  | [] => []
  | .NewClients c :: evs => c :: registers evs
  | _ :: evs => registers evs

/-- Channels received from `ClosedClients`, oldest first. -/
def deregisters : List Select → List ClientChan
  | [] => []
  | .ClosedClients c :: evs => c :: deregisters evs
  | _ :: evs => deregisters evs

/-- Messages received from `Message`, oldest first. -/
def publishes : List Select → List String
  | [] => []
  | .Message m :: evs => m :: publishes evs
  | _ :: evs => publishes evs

/-- The send to `c` during step `k` completes: `c` is a channel object, it is open, and its
consumer receives. -/
def drains (rt : Runtime) (k : Nat) (s : Event) : ClientChan → Prop
  | .nil => False
  | .ref id => id ∉ s.closed ∧ rt.receiving k id = true

/-- The send to `c` during step `k` never completes: `c` is nil, or it is an open channel
whose consumer is not receiving. -/
def stalls (rt : Runtime) (k : Nat) (s : Event) : ClientChan → Prop
  | .nil => True
  | .ref id => id ∉ s.closed ∧ rt.receiving k id = false

/-- The channel is not a closed channel object. -/
def isOpen (s : Event) : ClientChan → Prop
  | .nil => True
  | .ref id => id ∉ s.closed

/-- The discipline of `serveHTTP` on the values the worker receives, given the channels
registered (`seen`) and deregistered (`gone`) before: a registered channel is a new channel
object, and a deregistered channel was registered before and not yet deregistered. -/
def obeys (seen gone : List ClientChan) : List Select → Bool
  | [] => true
  | .NewClients c :: evs =>
    decide (c ≠ ClientChan.nil) && decide (c ∉ seen) && obeys (c :: seen) gone evs
  | .ClosedClients c :: evs =>
    decide (c ∈ seen) && decide (c ∉ gone) && obeys seen (c :: gone) evs
  | .Message _ :: evs => obeys seen gone evs

/-- The log entry of a completed send of `m` to `c`; no send to the nil channel completes. -/
def stamp (m : String) : ClientChan → Option (Nat × String)
  | .nil => none
  | .ref id => some (id, m)

/-- Whether the send to `c` completes. -/
def completes (closed : List Nat) (recv : Nat → Bool) (c : ClientChan) : Bool :=
  match chanSend closed recv c with
  | .done _ => true
  | _ => false

/-- Every value of `evs` changes the size of the map when the worker handles it: it is a
registration of a channel absent from the map, or a deregistration of an open channel object
present in the map. -/
def effective (rt : Runtime) : Nat → Event → List Select → Bool
  | _, _, [] => true
  | k, s, .NewClients c :: evs =>
    decide (c ∉ s.TotalClients) &&
      effective rt (k + 1) (listenStep rt k s (.NewClients c)).state evs
  | k, s, .ClosedClients c :: evs =>
    decide (c ∈ s.TotalClients) && (chanClose s.closed c).isSome &&
      effective rt (k + 1) (listenStep rt k s (.ClosedClients c)).state evs
  | _, _, .Message _ :: _ => false

/-- No channel is received from `NewClients` after it was received from `ClosedClients`;
`gone` lists the channels received from `ClosedClients` before. -/
def neverReregisters (gone : List ClientChan) : List Select → Bool
  | [] => true
  | .NewClients c :: evs => decide (c ∉ gone) && neverReregisters gone evs
  | .ClosedClients c :: evs => neverReregisters (c :: gone) evs
  | .Message _ :: evs => neverReregisters gone evs

instance (rt : Runtime) (k : Nat) (s : Event) (c : ClientChan) : Decidable (drains rt k s c) := by
  cases c <;> unfold drains <;> infer_instance

instance (rt : Runtime) (k : Nat) (s : Event) (c : ClientChan) : Decidable (stalls rt k s c) := by
  cases c <;> unfold stalls <;> infer_instance

instance (s : Event) (c : ClientChan) : Decidable (isOpen s c) := by
  cases c <;> unfold isOpen <;> infer_instance

/-- The hub state agrees with the channels registered (`seen`) and deregistered (`gone`) so
far under the discipline of `serveHTTP`: the map holds the channels registered and not
deregistered, the closed channels are the deregistered ones, and nil was never registered. -/
def Tracks (s : Event) (seen gone : List ClientChan) : Prop :=
  s.TotalClients.Nodup ∧ (∀ c, c ∈ s.TotalClients ↔ c ∈ seen ∧ c ∉ gone) ∧
    (∀ id, id ∈ s.closed ↔ ClientChan.ref id ∈ gone) ∧ ClientChan.nil ∉ seen ∧
    (∀ c ∈ gone, c ∈ seen)

/-- No key of the map is a closed channel, no channel was closed twice, and every closed
channel is among the deregistered channels `gone`. -/
def HoldsOpen (s : Event) (gone : List ClientChan) : Prop :=
  s.TotalClients.Nodup ∧ s.closed.Nodup ∧ (∀ id ∈ s.closed, ClientChan.ref id ∈ gone) ∧
    (∀ id, ClientChan.ref id ∈ s.TotalClients → id ∉ s.closed)

/-- Every channel received is a channel object, no channel is received from `NewClients`
after it was received from `ClosedClients`, and no channel is received from `ClosedClients`
twice; `gone` lists the channels received from `ClosedClients` before, latest first. -/
def closesOnce (gone : List ClientChan) : List Select → Bool
  | [] => true
  | .NewClients c :: evs =>
    decide (c ≠ ClientChan.nil) && decide (c ∉ gone) && closesOnce gone evs
  | .ClosedClients c :: evs =>
    decide (c ≠ ClientChan.nil) && decide (c ∉ gone) && closesOnce (c :: gone) evs
  | .Message _ :: evs => closesOnce gone evs

/-- The closes executed so far, latest first, are the deregistrations `gone`, none of them
twice, and nil is not a key of the map. -/
def ClosedIs (s : Event) (gone : List ClientChan) : Prop :=
  s.closed.map ClientChan.ref = gone ∧ gone.Nodup ∧ ClientChan.nil ∉ s.TotalClients

/-! ## The map -/

theorem mapSet_nodup (c : ClientChan) (m : List ClientChan) (h : m.Nodup) :
    (mapSet c m).Nodup := by
  unfold mapSet
  split
  · exact h
  · rename_i hc
    exact List.Nodup.append h (List.nodup_singleton c) (by
      intro x hx hx1
      simp at hx1
      subst hx1
      exact hc hx)

theorem mem_mapSet (c d : ClientChan) (m : List ClientChan) :
    d ∈ mapSet c m ↔ d = c ∨ d ∈ m := by
  unfold mapSet
  split
  · rename_i hc
    constructor
    · intro h; exact Or.inr h
    · rintro (h | h)
      · subst h; exact hc
      · exact h
  · simp [or_comm]

theorem mapDelete_nodup (c : ClientChan) (m : List ClientChan) (h : m.Nodup) :
    (mapDelete c m).Nodup := by
  unfold mapDelete
  exact h.erase c

theorem mem_mapDelete (c d : ClientChan) (m : List ClientChan) (h : m.Nodup) :
    d ∈ mapDelete c m ↔ d ≠ c ∧ d ∈ m := by
  unfold mapDelete
  exact h.mem_erase_iff

/-! ## The broadcast loop -/

theorem broadcast_state (recv : Nat → Bool) (m : String) (l : List ClientChan) (s : Event) :
    (broadcast recv m l s).state =
      { s with delivered :=
          s.delivered ++ (l.takeWhile (completes s.closed recv)).filterMap (stamp m) } := by
  induction l generalizing s with
  | nil => simp [broadcast, Outcome.state]
  | cons c rest ih =>
    cases c with
    | nil => simp [broadcast, chanSend, completes, Outcome.state]
    | ref id =>
      by_cases hc : id ∈ s.closed
      · simp [broadcast, chanSend, completes, Outcome.state, hc]
      · by_cases hr : recv id = true
        · simp [broadcast, chanSend, completes, hc, hr, ih, stamp]
        · simp [broadcast, chanSend, completes, Outcome.state, hc, hr]

theorem broadcast_eq (recv : Nat → Bool) (m : String) (l : List ClientChan) (s : Event) :
    broadcast recv m l s =
      match (l.dropWhile (completes s.closed recv)).head? with
      | none => .ok (broadcast recv m l s).state
      | some c =>
        match chanSend s.closed recv c with
        | .panics => .panic (broadcast recv m l s).state
        | _ => .blocked (broadcast recv m l s).state := by
  induction l generalizing s with
  | nil => simp [broadcast, Outcome.state]
  | cons c rest ih =>
    cases c with
    | nil => simp [broadcast, chanSend, completes, Outcome.state]
    | ref id =>
      by_cases hc : id ∈ s.closed
      · simp [broadcast, chanSend, completes, Outcome.state, hc]
      · by_cases hr : recv id = true
        · simp only [broadcast, chanSend, completes, hc, hr, if_true, if_false,
            List.dropWhile_cons]
          exact ih _
        · simp [broadcast, chanSend, completes, Outcome.state, hc, hr]

theorem broadcast_ok (recv : Nat → Bool) (m : String) (l : List ClientChan) (s : Event)
    (h : ∀ c ∈ l, completes s.closed recv c = true) :
    broadcast recv m l s =
      .ok { s with delivered := s.delivered ++ l.filterMap (stamp m) } := by
  have h1 : l.dropWhile (completes s.closed recv) = [] := by
    rw [List.dropWhile_eq_nil_iff]; exact h
  have h2 : l.takeWhile (completes s.closed recv) = l := by
    rw [List.takeWhile_eq_self_iff]; exact h
  rw [broadcast_eq, h1, broadcast_state, h2]
  rfl

theorem received_append (s : Event) (x : List (Nat × String)) (id : Nat) :
    received { s with delivered := s.delivered ++ x } id =
      received s id ++ (x.filter (fun p => p.1 == id)).map Prod.snd := by
  simp [received]

theorem received_stamp (m : String) (l : List ClientChan) (id : Nat) :
    ((l.filterMap (stamp m)).filter (fun p => p.1 == id)).map Prod.snd =
      List.replicate (l.count (.ref id)) m := by
  induction l with
  | nil => simp
  | cons c rest ih =>
    cases c with
    | nil => simp [stamp, ih]
    | ref j =>
      by_cases hj : j = id
      · subst hj
        simp [stamp, List.filter_cons, ih, List.replicate_succ]
      · have hne : (ClientChan.ref j == ClientChan.ref id) = false := by
          simp [hj]
        simp [stamp, List.filter_cons, ih, hj, List.count_cons, hne]

theorem broadcast_received (recv : Nat → Bool) (m : String) (l : List ClientChan) (s : Event)
    (id : Nat) :
    received (broadcast recv m l s).state id =
      received s id ++
        List.replicate ((l.takeWhile (completes s.closed recv)).count (.ref id)) m := by
  rw [broadcast_state, received_append, received_stamp]

/-! ## One step of the worker -/

theorem listenStep_nodup (rt : Runtime) (k : Nat) (s : Event) (e : Select)
    (h : s.TotalClients.Nodup) : (listenStep rt k s e).state.TotalClients.Nodup := by
  cases e with
  | NewClients c => exact mapSet_nodup c _ h
  | ClosedClients c =>
    simp only [listenStep]
    cases chanClose s.closed c <;> exact mapDelete_nodup c _ h
  | Message m =>
    simp only [listenStep, broadcast_state]
    exact h

theorem listenStep_closed_mono (rt : Runtime) (k : Nat) (s : Event) (e : Select) (id : Nat)
    (h : id ∈ s.closed) : id ∈ (listenStep rt k s e).state.closed := by
  cases e with
  | NewClients c => exact h
  | ClosedClients c =>
    cases c with
    | nil => exact h
    | ref j =>
      by_cases hj : j ∈ s.closed
      · simp [listenStep, chanClose, hj, Outcome.state, h]
      · simp [listenStep, chanClose, hj, Outcome.state, h]
  | Message m =>
    simp only [listenStep, broadcast_state]
    exact h

theorem count_takeWhile_le_one (p : ClientChan → Bool) (l : List ClientChan) (c : ClientChan)
    (h : l.Nodup) : (l.takeWhile p).count c ≤ 1 := by
  have h1 : (l.takeWhile p).Nodup :=
    List.Nodup.sublist (List.takeWhile_sublist p) h
  exact List.nodup_iff_count_le_one.mp h1 c

theorem listenStep_received (rt : Runtime) (k : Nat) (s : Event) (e : Select) (id : Nat)
    (h : s.TotalClients.Nodup) :
    ∃ r, received (listenStep rt k s e).state id = received s id ++ r ∧
      r.Sublist (publishes [e]) := by
  cases e with
  | NewClients c => exact ⟨[], by simp [listenStep, Outcome.state, received], by simp⟩
  | ClosedClients c =>
    refine ⟨[], ?_, by simp⟩
    simp only [listenStep]
    cases chanClose s.closed c <;> simp [Outcome.state, received]
  | Message m =>
    have hn : (rt.rangeOrder k s.TotalClients).Nodup :=
      (rt.rangeOrder_perm k s.TotalClients).nodup_iff.mpr h
    have hle := count_takeWhile_le_one (completes s.closed (rt.receiving k))
      (rt.rangeOrder k s.TotalClients) (.ref id) hn
    refine ⟨_, broadcast_received _ _ _ _ _, ?_⟩
    simp only [publishes]
    interval_cases hcnt : List.count (ClientChan.ref id)
      (List.takeWhile (completes s.closed (rt.receiving k)) (rt.rangeOrder k s.TotalClients))
    · simp
    · simp

theorem listenStep_received_closed (rt : Runtime) (k : Nat) (s : Event) (e : Select) (id : Nat)
    (h : id ∈ s.closed) : received (listenStep rt k s e).state id = received s id := by
  cases e with
  | NewClients c => rfl
  | ClosedClients c =>
    simp only [listenStep]
    cases chanClose s.closed c <;> rfl
  | Message m =>
    simp only [listenStep, broadcast_received]
    have h0 : (List.takeWhile (completes s.closed (rt.receiving k))
        (rt.rangeOrder k s.TotalClients)).count (.ref id) = 0 := by
      rw [List.count_eq_zero]
      intro hmem
      have := List.mem_takeWhile_imp hmem
      simp [completes, chanSend, h] at this
    simp [h0]

/-! ## Runs of the worker -/

theorem listen_cons_state (rt : Runtime) (k : Nat) (s : Event) (e : Select)
    (evs : List Select) :
    listen rt k s (e :: evs) =
      match listenStep rt k s e with
      | .ok s1 => listen rt (k + 1) s1 evs
      | .panic s1 => .panic s1
      | .blocked s1 => .blocked s1 := rfl

theorem listen_append (rt : Runtime) (k : Nat) (s : Event) (a b : List Select) :
    listen rt k s (a ++ b) =
      match listen rt k s a with
      | .ok s1 => listen rt (k + a.length) s1 b
      | .panic s1 => .panic s1
      | .blocked s1 => .blocked s1 := by
  induction a generalizing k s with
  | nil => simp [listen]
  | cons e es ih =>
    rw [List.cons_append, listen_cons_state, listen_cons_state, List.length_cons]
    cases hstep : listenStep rt k s e with
    | ok s1 =>
      simp only []
      rw [ih]
      have : k + 1 + es.length = k + (es.length + 1) := by omega
      rw [this]
    | panic s1 => rfl
    | blocked s1 => rfl

theorem listen_nodup (rt : Runtime) (k : Nat) (s : Event) (evs : List Select)
    (h : s.TotalClients.Nodup) : (listen rt k s evs).state.TotalClients.Nodup := by
  induction evs generalizing k s with
  | nil => exact h
  | cons e es ih =>
    have hs := listenStep_nodup rt k s e h
    rw [listen_cons_state]
    cases hstep : listenStep rt k s e with
    | ok s1 => rw [hstep] at hs; exact ih _ _ hs
    | panic s1 => rw [hstep] at hs; exact hs
    | blocked s1 => rw [hstep] at hs; exact hs

theorem listen_received_closed (rt : Runtime) (k : Nat) (s : Event) (evs : List Select)
    (id : Nat) (h : id ∈ s.closed) : received (listen rt k s evs).state id = received s id := by
  induction evs generalizing k s with
  | nil => rfl
  | cons e es ih =>
    have hc := listenStep_closed_mono rt k s e id h
    have hr := listenStep_received_closed rt k s e id h
    rw [listen_cons_state]
    cases hstep : listenStep rt k s e with
    | ok s1 =>
      rw [hstep] at hc hr
      simp only [Outcome.state] at hc hr
      rw [ih _ _ hc, hr]
    | panic s1 => rw [hstep] at hr; exact hr
    | blocked s1 => rw [hstep] at hr; exact hr

theorem publishes_cons (e : Select) (evs : List Select) :
    publishes (e :: evs) = publishes [e] ++ publishes evs := by
  cases e <;> simp [publishes]

theorem listen_received (rt : Runtime) (k : Nat) (s : Event) (evs : List Select) (id : Nat)
    (h : s.TotalClients.Nodup) :
    ∃ r, received (listen rt k s evs).state id = received s id ++ r ∧
      r.Sublist (publishes evs) := by
  induction evs generalizing k s with
  | nil => exact ⟨[], by simp [listen, Outcome.state], by simp⟩
  | cons e es ih =>
    have hs := listenStep_nodup rt k s e h
    obtain ⟨r1, hr1, hsub1⟩ := listenStep_received rt k s e id h
    rw [listen_cons_state, publishes_cons]
    cases hstep : listenStep rt k s e with
    | ok s1 =>
      rw [hstep] at hs hr1
      simp only [Outcome.state] at hs hr1
      obtain ⟨r2, hr2, hsub2⟩ := ih (k + 1) s1 hs
      exact ⟨r1 ++ r2, by rw [hr2, hr1, List.append_assoc], List.Sublist.append hsub1 hsub2⟩
    | panic s1 =>
      rw [hstep] at hr1
      exact ⟨r1, hr1, hsub1.trans (List.sublist_append_left _ _)⟩
    | blocked s1 =>
      rw [hstep] at hr1
      exact ⟨r1, hr1, hsub1.trans (List.sublist_append_left _ _)⟩

theorem listen_snoc (rt : Runtime) (s s1 : Event) (evs : List Select) (e : Select)
    (h : listen rt 0 s evs = .ok s1) :
    listen rt 0 s (evs ++ [e]) = listenStep rt evs.length s1 e := by
  rw [listen_append, h]
  simp only [Nat.zero_add, listen_cons_state]
  cases listenStep rt evs.length s1 e <;> rfl

theorem listen_ok_append (rt : Runtime) (k : Nat) (s s2 : Event) (a b : List Select)
    (h : listen rt k s (a ++ b) = .ok s2) : ∃ s1, listen rt k s a = .ok s1 := by
  rw [listen_append] at h
  cases h1 : listen rt k s a with
  | ok s1 => exact ⟨s1, rfl⟩
  | panic s1 => rw [h1] at h; cases h
  | blocked s1 => rw [h1] at h; cases h

theorem reachable_nodup (rt : Runtime) (evs : List Select) (s : Event)
    (h : listen rt 0 NewServer evs = .ok s) : s.TotalClients.Nodup := by
  have := listen_nodup rt 0 NewServer evs (by simp [NewServer])
  rw [h] at this
  exact this

theorem drains_completes (rt : Runtime) (k : Nat) (s : Event) (c : ClientChan)
    (h : drains rt k s c) : completes s.closed (rt.receiving k) c = true := by
  cases c with
  | nil => exact h.elim
  | ref id => simp [completes, chanSend, h.1, h.2]

theorem completes_drains (rt : Runtime) (k : Nat) (s : Event) (c : ClientChan)
    (h : completes s.closed (rt.receiving k) c = true) : drains rt k s c := by
  cases c with
  | nil => simp [completes, chanSend] at h
  | ref id =>
    by_cases hc : id ∈ s.closed
    · simp [completes, chanSend, hc] at h
    · by_cases hr : rt.receiving k id = true
      · exact ⟨hc, hr⟩
      · simp [completes, chanSend, hc, hr] at h

theorem broadcast_ok_inv (recv : Nat → Bool) (m : String) (l : List ClientChan) (s s1 : Event)
    (h : broadcast recv m l s = .ok s1) : ∀ c ∈ l, completes s.closed recv c = true := by
  rw [broadcast_eq] at h
  cases hd : (l.dropWhile (completes s.closed recv)).head? with
  | none =>
    have : l.dropWhile (completes s.closed recv) = [] := by
      cases hl : l.dropWhile (completes s.closed recv) with
      | nil => rfl
      | cons a b => rw [hl] at hd; simp at hd
    exact List.dropWhile_eq_nil_iff.mp this
  | some c =>
    rw [hd] at h
    simp only [] at h
    cases hs : chanSend s.closed recv c <;> rw [hs] at h <;> cases h

/-- Handling a message when every send completes: the step succeeds, changes neither the map
nor the closed channels, and every key of the map receives the message exactly once. -/
theorem publish_all_complete (rt : Runtime) (k : Nat) (s : Event) (m : String)
    (hn : s.TotalClients.Nodup)
    (h : ∀ c ∈ s.TotalClients, completes s.closed (rt.receiving k) c = true) :
    ∃ s1, listenStep rt k s (.Message m) = .ok s1 ∧ s1.TotalClients = s.TotalClients ∧
      s1.closed = s.closed ∧
      ∀ id, received s1 id =
        received s id ++ (if ClientChan.ref id ∈ s.TotalClients then [m] else []) := by
  have hp := rt.rangeOrder_perm k s.TotalClients
  have h1 : ∀ c ∈ rt.rangeOrder k s.TotalClients,
      completes s.closed (rt.receiving k) c = true := fun c hc => h c (hp.mem_iff.mp hc)
  refine ⟨_, broadcast_ok _ m _ s h1, rfl, rfl, ?_⟩
  intro id
  rw [received_append, received_stamp, hp.count_eq]
  by_cases hmem : ClientChan.ref id ∈ s.TotalClients
  · rw [List.count_eq_one_of_mem hn hmem]
    simp [hmem]
  · rw [List.count_eq_zero_of_not_mem hmem]
    simp [hmem]

theorem listen_snoc_message (rt : Runtime) (evs : List Select) (s : Event) (m : String)
    (hs : listen rt 0 NewServer evs = .ok s)
    (hd : ∀ c ∈ s.TotalClients, drains rt evs.length s c) :
    ∃ s1, listen rt 0 NewServer (evs ++ [.Message m]) = .ok s1 ∧
      s1.TotalClients = s.TotalClients ∧ s1.closed = s.closed ∧
      ∀ id, received s1 id =
        received s id ++ (if ClientChan.ref id ∈ s.TotalClients then [m] else []) := by
  rw [listen_snoc rt NewServer s evs _ hs]
  exact publish_all_complete rt evs.length s m (reachable_nodup rt evs s hs)
    (fun c hc => drains_completes rt _ s c (hd c hc))

theorem listen_three_registers (rt : Runtime) (a b c : Nat) (hab : a ≠ b) (hac : a ≠ c)
    (hbc : b ≠ c) :
    listen rt 0 NewServer [.NewClients (.ref a), .NewClients (.ref b), .NewClients (.ref c)] =
      .ok { TotalClients := [.ref a, .ref b, .ref c], closed := [], delivered := [] } := by
  simp [listen, listenStep, mapSet, NewServer, Ne.symm hab, Ne.symm hac, Ne.symm hbc]

/-! ## The claims -/

/-- C1, as the code has it: in every hub state reached from `NewServer` by handling any
sequence of values in which every key of `TotalClients` is an open channel object whose
consumer receives (`drains`), handling `Message m` completes, changes neither the map nor
the closed channels, and appends `m` exactly once to what each channel of the map has
received and nothing to what any other channel has received. In particular, after three
distinct channels are registered and "hello" is published, each of the three has received
exactly "hello", once, and no other channel has received anything. -/
theorem publish_delivers_exactly_once :
    (∀ (rt : Runtime) (evs : List Select) (s : Event) (m : String),
      listen rt 0 NewServer evs = .ok s →
      (∀ c ∈ s.TotalClients, drains rt evs.length s c) →
      ∃ s1, listen rt 0 NewServer (evs ++ [.Message m]) = .ok s1 ∧
        s1.TotalClients = s.TotalClients ∧ s1.closed = s.closed ∧
        ∀ id, received s1 id =
          received s id ++ (if ClientChan.ref id ∈ s.TotalClients then [m] else [])) ∧
    (∀ (rt : Runtime) (a b c : Nat), a ≠ b → a ≠ c → b ≠ c →
      (∀ k id, rt.receiving k id = true) →
      ∃ s, listen rt 0 NewServer
          [.NewClients (.ref a), .NewClients (.ref b), .NewClients (.ref c),
            .Message "hello"] = .ok s ∧
        received s a = ["hello"] ∧ received s b = ["hello"] ∧ received s c = ["hello"] ∧
        ∀ d, d ≠ a → d ≠ b → d ≠ c → received s d = []) := by
  refine ⟨listen_snoc_message, ?_⟩
  intro rt a b c hab hac hbc hrecv
  have h3 := listen_three_registers rt a b c hab hac hbc
  obtain ⟨s1, hs1, -, -, hr⟩ := listen_snoc_message rt _ _ "hello" h3 (by
    intro x hx
    simp only [List.mem_cons, List.mem_singleton, List.not_mem_nil, or_false] at hx
    rcases hx with rfl | rfl | rfl <;> simp [drains, hrecv])
  refine ⟨s1, hs1, ?_, ?_, ?_, ?_⟩
  · rw [hr]; simp [received]
  · rw [hr]; simp [received]
  · rw [hr]; simp [received]
  · intro d hda hdb hdc
    rw [hr]; simp [received, hda, hdb, hdc]

theorem publish_delivers_exactly_once_witness :
    ∃ s1, listen promptRuntime 0 NewServer
        ([.NewClients (.ref 1), .NewClients (.ref 2)] ++ [.Message "hello"]) = .ok s1 ∧
      s1.TotalClients = [.ref 1, .ref 2] ∧ s1.closed = [] ∧
      ∀ id, received s1 id =
        received { TotalClients := [.ref 1, .ref 2], closed := [], delivered := [] } id ++
          (if ClientChan.ref id ∈ [ClientChan.ref 1, ClientChan.ref 2] then ["hello"]
            else []) :=
  publish_delivers_exactly_once.1 promptRuntime
    [.NewClients (.ref 1), .NewClients (.ref 2)]
    { TotalClients := [.ref 1, .ref 2], closed := [], delivered := [] } "hello"
    (by decide) (by decide)

/-- C1 as stated fails: after a channel is registered, deregistered and registered again,
the hub state is reached with the closed channel as a key of `TotalClients`; with every
consumer receiving, the publish that follows is a send on a closed channel: the worker dies
and the message is appended to what no channel has received, the key of the map included. -/
theorem publish_to_closed_key_panics :
    listen promptRuntime 0 NewServer
        [.NewClients (.ref 1), .ClosedClients (.ref 1), .NewClients (.ref 1)] =
      .ok { TotalClients := [.ref 1], closed := [1], delivered := [] } ∧
    listen promptRuntime 0 NewServer
        [.NewClients (.ref 1), .ClosedClients (.ref 1), .NewClients (.ref 1),
          .Message "hello"] =
      .panic { TotalClients := [.ref 1], closed := [1], delivered := [] } ∧
    received (listen promptRuntime 0 NewServer
        [.NewClients (.ref 1), .ClosedClients (.ref 1), .NewClients (.ref 1),
          .Message "hello"]).state 1 = [] := by
  decide

/-- C3: whatever the worker has done with a sequence of values (handled all of them, died,
or parked in a send), what each channel has received is a subsequence of the published
messages in the order the worker handled them: the order is kept and no publish is
delivered twice to the same channel. -/
theorem received_sublist_publishes (rt : Runtime) (evs : List Select) (id : Nat) :
    (received (listen rt 0 NewServer evs).state id).Sublist (publishes evs) := by
  obtain ⟨r, hr, hsub⟩ := listen_received rt 0 NewServer evs id (by simp [NewServer])
  rw [hr]
  simpa [received, NewServer] using hsub

/-- C8: handling `Message m` when `TotalClients` is empty completes (it neither blocks nor
panics) and leaves the whole hub state as it was: nothing is delivered, the map stays
empty, nothing is closed. In particular publishing "x" to the hub made by `NewServer`
leaves it as `NewServer` made it. -/
theorem publish_empty_registry :
    (∀ (rt : Runtime) (k : Nat) (s : Event) (m : String),
      s.TotalClients = [] → listenStep rt k s (.Message m) = .ok s) ∧
    (∀ rt : Runtime, listen rt 0 NewServer [.Message "x"] = .ok NewServer) := by
  have h : ∀ (rt : Runtime) (k : Nat) (s : Event) (m : String),
      s.TotalClients = [] → listenStep rt k s (.Message m) = .ok s := by
    intro rt k s m hs
    have hp := rt.rangeOrder_perm k s.TotalClients
    rw [hs] at hp
    simp only [listenStep, hs, List.Perm.eq_nil hp, broadcast]
  refine ⟨h, ?_⟩
  intro rt
  rw [listen_cons_state, h rt 0 NewServer "x" rfl]
  rfl

theorem publish_empty_registry_witness :
    listenStep promptRuntime 5 { TotalClients := [], closed := [7], delivered := [(7, "a")] }
        (.Message "x") =
      .ok { TotalClients := [], closed := [7], delivered := [(7, "a")] } :=
  publish_empty_registry.1 promptRuntime 5
    { TotalClients := [], closed := [7], delivered := [(7, "a")] } "x" rfl

theorem listen_mem_of_registered (rt : Runtime) (k : Nat) (s0 s : Event) (evs : List Select)
    (c : ClientChan) (hn : s0.TotalClients.Nodup) (hs : listen rt k s0 evs = .ok s)
    (hreg : c ∈ s0.TotalClients ∨ c ∈ registers evs) (hder : c ∉ deregisters evs) :
    c ∈ s.TotalClients := by
  induction evs generalizing k s0 with
  | nil =>
    simp only [listen, Outcome.ok.injEq] at hs
    subst hs
    simpa [registers] using hreg
  | cons e es ih =>
    rw [listen_cons_state] at hs
    have hn1 := listenStep_nodup rt k s0 e hn
    cases hstep : listenStep rt k s0 e with
    | panic s1 => rw [hstep] at hs; cases hs
    | blocked s1 => rw [hstep] at hs; cases hs
    | ok s1 =>
      rw [hstep] at hs hn1
      simp only [] at hs
      simp only [Outcome.state] at hn1
      cases e with
      | NewClients d =>
        simp only [listenStep, Outcome.ok.injEq] at hstep
        subst hstep
        refine ih (k + 1) _ hn1 hs ?_ (by simpa [deregisters] using hder)
        simp only [registers, List.mem_cons] at hreg
        simp only [mem_mapSet]
        tauto
      | ClosedClients d =>
        simp only [deregisters, List.mem_cons, not_or] at hder
        have hreg1 : c ∈ s0.TotalClients ∨ c ∈ registers es := by
          simpa [registers] using hreg
        have hmem : ∀ x, x ∈ s1.TotalClients ↔ x ≠ d ∧ x ∈ s0.TotalClients := by
          intro x
          simp only [listenStep] at hstep
          cases hcl : chanClose s0.closed d with
          | none => rw [hcl] at hstep; cases hstep
          | some cl =>
            rw [hcl] at hstep
            simp only [Outcome.ok.injEq] at hstep
            subst hstep
            exact mem_mapDelete d x _ hn
        refine ih (k + 1) _ hn1 hs ?_ hder.2
        rcases hreg1 with h | h
        · exact Or.inl ((hmem c).mpr ⟨hder.1, h⟩)
        · exact Or.inr h
      | Message m =>
        have hst : s1.TotalClients = s0.TotalClients := by
          have h1 := broadcast_state (rt.receiving k) m (rt.rangeOrder k s0.TotalClients) s0
          simp only [listenStep] at hstep
          rw [hstep] at h1
          simp only [Outcome.state] at h1
          rw [h1]
        refine ih (k + 1) _ hn1 hs ?_ (by simpa [deregisters] using hder)
        rw [hst]
        simpa [registers] using hreg

theorem closed_after_deregister (rt : Runtime) (k : Nat) (s s1 : Event) (id : Nat)
    (h : listenStep rt k s (.ClosedClients (.ref id)) = .ok s1) : id ∈ s1.closed := by
  by_cases hc : id ∈ s.closed
  · simp [listenStep, chanClose, hc] at h
  · simp only [listenStep, chanClose, hc, if_false, Outcome.ok.injEq] at h
    subst h
    simp

theorem publish_ok_received (rt : Runtime) (k : Nat) (s s1 : Event) (m : String)
    (c : ClientChan) (hn : s.TotalClients.Nodup) (hc : c ∈ s.TotalClients)
    (h : listenStep rt k s (.Message m) = .ok s1) :
    ∃ id, c = .ref id ∧ received s1 id = received s id ++ [m] := by
  have hall := broadcast_ok_inv _ _ _ _ _ h
  have hall1 : ∀ d ∈ s.TotalClients, completes s.closed (rt.receiving k) d = true :=
    fun d hd => hall d ((rt.rangeOrder_perm k s.TotalClients).mem_iff.mpr hd)
  obtain ⟨s2, hs2, -, -, hr⟩ := publish_all_complete rt k s m hn hall1
  rw [h] at hs2
  simp only [Outcome.ok.injEq] at hs2
  subst hs2
  cases c with
  | nil =>
    have := hall1 _ hc
    simp [completes, chanSend] at this
  | ref id => exact ⟨id, rfl, by rw [hr]; simp [hc]⟩

/-- C2, as the code has it: (1) once the worker has handled the deregistration of a
channel, nothing more is ever delivered to it, whatever values follow and however the run
ends; (2) a channel registered before a publish and not deregistered before it is in
`TotalClients` when the worker handles the publish; when every key of the map is an open
channel object whose consumer receives (`drains`), the handling of the publish completes
and that channel has received the message, once; and it has received it, once, whenever the
handling of the publish completes; (3) after three distinct channels are registered, the
second is deregistered and "world" is published, the first and third have received exactly
"world" and the second, now closed, nothing. -/
theorem deregistered_excluded_registered_included :
    (∀ (rt : Runtime) (pre post : List Select) (id : Nat) (s1 : Event),
      listen rt 0 NewServer (pre ++ [.ClosedClients (.ref id)]) = .ok s1 →
      received (listen rt 0 NewServer (pre ++ .ClosedClients (.ref id) :: post)).state id =
        received s1 id) ∧
    (∀ (rt : Runtime) (pre : List Select) (s : Event) (c : ClientChan) (m : String),
      listen rt 0 NewServer pre = .ok s → c ∈ registers pre → c ∉ deregisters pre →
      c ∈ s.TotalClients ∧
      ((∀ d ∈ s.TotalClients, drains rt pre.length s d) →
        ∃ s1 id, listen rt 0 NewServer (pre ++ [.Message m]) = .ok s1 ∧ c = .ref id ∧
          received s1 id = received s id ++ [m]) ∧
      (∀ s1, listen rt 0 NewServer (pre ++ [.Message m]) = .ok s1 →
        ∃ id, c = .ref id ∧ received s1 id = received s id ++ [m])) ∧
    (∀ (rt : Runtime) (a b c : Nat), a ≠ b → a ≠ c → b ≠ c →
      (∀ k id, rt.receiving k id = true) →
      ∃ s, listen rt 0 NewServer
          [.NewClients (.ref a), .NewClients (.ref b), .NewClients (.ref c),
            .ClosedClients (.ref b), .Message "world"] = .ok s ∧
        received s a = ["world"] ∧ received s c = ["world"] ∧ received s b = [] ∧
        b ∈ s.closed) := by
  refine ⟨?_, ?_, ?_⟩
  · intro rt pre post id s1 h
    have hsplit : pre ++ Select.ClosedClients (.ref id) :: post =
        (pre ++ [Select.ClosedClients (.ref id)]) ++ post := by simp
    obtain ⟨s0, hs0⟩ := listen_ok_append rt 0 NewServer s1 pre _ h
    have hstep := listen_snoc rt NewServer s0 pre (.ClosedClients (.ref id)) hs0
    rw [h] at hstep
    have hcl := closed_after_deregister rt _ s0 s1 id hstep.symm
    rw [hsplit, listen_append, h]
    exact listen_received_closed rt _ s1 post id hcl
  · intro rt pre s c m hs hreg hder
    have hn := reachable_nodup rt pre s hs
    have hmem := listen_mem_of_registered rt 0 NewServer s pre c (by simp [NewServer]) hs
      (Or.inr hreg) hder
    have hany : ∀ s1, listen rt 0 NewServer (pre ++ [.Message m]) = .ok s1 →
        ∃ id, c = .ref id ∧ received s1 id = received s id ++ [m] := by
      intro s1 hs1
      rw [listen_snoc rt NewServer s pre _ hs] at hs1
      exact publish_ok_received rt _ s s1 m c hn hmem hs1
    refine ⟨hmem, ?_, hany⟩
    intro hd
    obtain ⟨s1, hs1, -⟩ := listen_snoc_message rt pre s m hs hd
    obtain ⟨id, hid, hr⟩ := hany s1 hs1
    exact ⟨s1, id, hs1, hid, hr⟩
  · intro rt a b c hab hac hbc hrecv
    have h4 : listen rt 0 NewServer
        [.NewClients (.ref a), .NewClients (.ref b), .NewClients (.ref c),
          .ClosedClients (.ref b)] =
        .ok { TotalClients := [.ref a, .ref c], closed := [b], delivered := [] } := by
      simp [listen, listenStep, mapSet, mapDelete, chanClose, NewServer, Ne.symm hab,
        Ne.symm hac, Ne.symm hbc, hab, hbc, List.erase_cons]
    obtain ⟨s1, hs1, -, hcl, hr⟩ := listen_snoc_message rt _ _ "world" h4 (by
      intro x hx
      simp only [List.mem_cons, List.mem_singleton, List.not_mem_nil, or_false] at hx
      rcases hx with rfl | rfl <;> simp [drains, hrecv, hab, Ne.symm hbc])
    refine ⟨s1, hs1, ?_, ?_, ?_, ?_⟩
    · rw [hr]; simp [received]
    · rw [hr]; simp [received]
    · rw [hr]; simp [received, Ne.symm hab, hbc]
    · rw [hcl]; simp

theorem deregistered_excluded_registered_included_witness :
    received (listen promptRuntime 0 NewServer
        ([.NewClients (.ref 1), .Message "a"] ++
          .ClosedClients (.ref 1) :: [.NewClients (.ref 1), .Message "b"])).state 1 =
      received { TotalClients := [], closed := [1], delivered := [(1, "a")] } 1 ∧
    ∃ s1 id, listen promptRuntime 0 NewServer
        ([.NewClients (.ref 1), .NewClients (.ref 2), .ClosedClients (.ref 1)] ++
          [.Message "world"]) = .ok s1 ∧
      ClientChan.ref 2 = .ref id ∧
      received s1 id =
        received { TotalClients := [.ref 2], closed := [1], delivered := [] } id ++
          ["world"] :=
  ⟨deregistered_excluded_registered_included.1 promptRuntime
      [.NewClients (.ref 1), .Message "a"] [.NewClients (.ref 1), .Message "b"] 1
      { TotalClients := [], closed := [1], delivered := [(1, "a")] } (by decide),
    (deregistered_excluded_registered_included.2.1 promptRuntime
      [.NewClients (.ref 1), .NewClients (.ref 2), .ClosedClients (.ref 1)]
      { TotalClients := [.ref 2], closed := [1], delivered := [] } (.ref 2) "world"
      (by decide) (by decide) (by decide)).2.1 (by decide)⟩

/-- C2 as stated fails: with three channels registered, none deregistered, and the consumer
of the second not receiving, the worker parks in the send to the second channel while
handling the publish: the third channel, registered before the publish and not deregistered,
has received nothing. -/
theorem registered_subscriber_misses_publish :
    listen (runtimeOf (fun id => id != 2)) 0 NewServer
        [.NewClients (.ref 1), .NewClients (.ref 2), .NewClients (.ref 3),
          .Message "world"] =
      .blocked { TotalClients := [.ref 1, .ref 2, .ref 3], closed := [],
                 delivered := [(1, "world")] } ∧
    ClientChan.ref 3 ∈
      registers [.NewClients (.ref 1), .NewClients (.ref 2), .NewClients (.ref 3)] ∧
    ClientChan.ref 3 ∉
      deregisters [.NewClients (.ref 1), .NewClients (.ref 2), .NewClients (.ref 3)] ∧
    received (listen (runtimeOf (fun id => id != 2)) 0 NewServer
        [.NewClients (.ref 1), .NewClients (.ref 2), .NewClients (.ref 3),
          .Message "world"]).state 3 = [] := by
  decide

/-! ## Registrations that change the map -/

theorem effective_of_append (rt : Runtime) (k : Nat) (s : Event) (a b : List Select)
    (h : effective rt k s (a ++ b) = true) : effective rt k s a = true := by
  induction a generalizing k s with
  | nil => rfl
  | cons e es ih =>
    cases e with
    | NewClients c =>
      simp only [List.cons_append, effective, Bool.and_eq_true] at h ⊢
      exact ⟨h.1, ih _ _ h.2⟩
    | ClosedClients c =>
      simp only [List.cons_append, effective, Bool.and_eq_true] at h ⊢
      exact ⟨h.1, ih _ _ h.2⟩
    | Message m => simp [effective] at h

theorem listen_effective (rt : Runtime) (k : Nat) (s : Event) (evs : List Select)
    (h : effective rt k s evs = true) :
    ∃ s1, listen rt k s evs = .ok s1 ∧
      s1.TotalClients.length + (deregisters evs).length =
        s.TotalClients.length + (registers evs).length := by
  induction evs generalizing k s with
  | nil => exact ⟨s, rfl, rfl⟩
  | cons e es ih =>
    cases e with
    | NewClients c =>
      simp only [effective, Bool.and_eq_true, decide_eq_true_eq] at h
      obtain ⟨s1, hs1, hlen⟩ := ih _ _ h.2
      refine ⟨s1, ?_, ?_⟩
      · rw [listen_cons_state]; exact hs1
      · simp only [listenStep, Outcome.state, mapSet, h.1, if_false, List.length_append,
          List.length_singleton] at hlen
        simp only [registers, deregisters, List.length_cons]
        omega
    | ClosedClients c =>
      simp only [effective, Bool.and_eq_true, decide_eq_true_eq] at h
      obtain ⟨⟨hmem, hcl⟩, hrest⟩ := h
      obtain ⟨cl, hcl1⟩ := Option.isSome_iff_exists.mp hcl
      have hstep : listenStep rt k s (.ClosedClients c) =
          .ok { TotalClients := mapDelete c s.TotalClients, closed := cl,
                delivered := s.delivered } := by
        simp only [listenStep, hcl1]
      rw [hstep] at hrest
      obtain ⟨s1, hs1, hlen⟩ := ih _ _ hrest
      refine ⟨s1, ?_, ?_⟩
      · rw [listen_cons_state, hstep]; exact hs1
      · simp only [Outcome.state, mapDelete, List.length_erase_of_mem hmem] at hlen
        have hpos : 0 < s.TotalClients.length := List.length_pos_of_mem hmem
        simp only [registers, deregisters, List.length_cons]
        omega
    | Message m => simp [effective] at h

/-- C4, as the code has it: for every sequence of registrations and deregistrations handled
from the hub of `NewServer` in which each registration presents a channel that is not in
`TotalClients` at that moment and each deregistration presents an open channel object that
is in `TotalClients` at that moment, the worker handles every value, and after each of them
the size of `TotalClients` is the number of registrations handled minus the number of
deregistrations handled, which is not negative. -/
theorem registry_size_is_registers_minus_deregisters (rt : Runtime) (pre post : List Select)
    (h : effective rt 0 NewServer (pre ++ post) = true) :
    ∃ s, listen rt 0 NewServer pre = .ok s ∧
      (s.TotalClients.length : Int) =
        ((registers pre).length : Int) - ((deregisters pre).length : Int) ∧
      (deregisters pre).length ≤ (registers pre).length := by
  obtain ⟨s, hs, hlen⟩ := listen_effective rt 0 NewServer pre
    (effective_of_append rt 0 NewServer pre post h)
  simp only [NewServer, List.length_nil, Nat.zero_add] at hlen
  exact ⟨s, hs, by omega, by omega⟩

theorem registry_size_is_registers_minus_deregisters_witness :
    ∃ s, listen promptRuntime 0 NewServer
        [.NewClients (.ref 1), .NewClients (.ref 2), .ClosedClients (.ref 1)] = .ok s ∧
      (s.TotalClients.length : Int) =
        ((registers [.NewClients (.ref 1), .NewClients (.ref 2),
            .ClosedClients (.ref 1)]).length : Int) -
          ((deregisters [.NewClients (.ref 1), .NewClients (.ref 2),
            .ClosedClients (.ref 1)]).length : Int) ∧
      (deregisters [.NewClients (.ref 1), .NewClients (.ref 2),
          .ClosedClients (.ref 1)]).length ≤
        (registers [.NewClients (.ref 1), .NewClients (.ref 2),
          .ClosedClients (.ref 1)]).length :=
  registry_size_is_registers_minus_deregisters promptRuntime
    [.NewClients (.ref 1), .NewClients (.ref 2), .ClosedClients (.ref 1)]
    [.NewClients (.ref 3)] (by decide)

/-- C4 as stated fails: registering the same channel twice leaves one key in the map while
two registrations were handled, and deregistering a channel that was never registered
leaves the map empty while registrations minus deregistrations is negative. -/
theorem registry_size_counterexample :
    (listen promptRuntime 0 NewServer [.NewClients (.ref 1), .NewClients (.ref 1)] =
        .ok { TotalClients := [.ref 1], closed := [], delivered := [] } ∧
      ((1 : Nat) : Int) ≠
        ((registers [.NewClients (.ref 1), .NewClients (.ref 1)]).length : Int) -
          ((deregisters [.NewClients (.ref 1), .NewClients (.ref 1)]).length : Int)) ∧
    (listen promptRuntime 0 NewServer [.ClosedClients (.ref 1)] =
        .ok { TotalClients := [], closed := [1], delivered := [] } ∧
      ((registers [.ClosedClients (.ref 1)]).length : Int) -
          ((deregisters [.ClosedClients (.ref 1)]).length : Int) < 0) := by
  decide

/-- C5, as the code has it: `listen` closes the channel it receives from `ClosedClients`
without any guard. When the channel is an open channel object the step does not crash,
whether or not the channel is a key of the map: the key is deleted if present (the map is
unchanged if absent), the channel is closed and the loop goes on with the next value. When
the channel is already closed, the step is a fatal close of a closed channel and the
worker handles no further value. -/
theorem deregister_open_safe_closed_fatal :
    (∀ (rt : Runtime) (k : Nat) (s : Event) (id : Nat) (rest : List Select),
      id ∉ s.closed →
      listenStep rt k s (.ClosedClients (.ref id)) =
        .ok { TotalClients := mapDelete (.ref id) s.TotalClients, closed := id :: s.closed,
              delivered := s.delivered } ∧
      listen rt k s (.ClosedClients (.ref id) :: rest) =
        listen rt (k + 1)
          { TotalClients := mapDelete (.ref id) s.TotalClients, closed := id :: s.closed,
            delivered := s.delivered } rest ∧
      (ClientChan.ref id ∉ s.TotalClients →
        mapDelete (.ref id) s.TotalClients = s.TotalClients)) ∧
    (∀ (rt : Runtime) (k : Nat) (s : Event) (id : Nat) (rest : List Select),
      id ∈ s.closed →
      listen rt k s (.ClosedClients (.ref id) :: rest) =
        .panic { TotalClients := mapDelete (.ref id) s.TotalClients, closed := s.closed,
                 delivered := s.delivered }) := by
  constructor
  · intro rt k s id rest hc
    have hstep : listenStep rt k s (.ClosedClients (.ref id)) =
        .ok { TotalClients := mapDelete (.ref id) s.TotalClients, closed := id :: s.closed,
              delivered := s.delivered } := by
      simp [listenStep, chanClose, hc]
    refine ⟨hstep, ?_, ?_⟩
    · rw [listen_cons_state, hstep]
    · intro hmem
      exact List.erase_of_not_mem hmem
  · intro rt k s id rest hc
    rw [listen_cons_state]
    simp [listenStep, chanClose, hc]

theorem deregister_open_safe_closed_fatal_witness :
    listen promptRuntime 0 NewServer [.ClosedClients (.ref 4), .NewClients (.ref 5)] =
      listen promptRuntime 1
        { TotalClients := mapDelete (.ref 4) [], closed := [4], delivered := [] }
        [.NewClients (.ref 5)] :=
  (deregister_open_safe_closed_fatal.1 promptRuntime 0 NewServer 4 [.NewClients (.ref 5)]
    (by decide)).2.1

/-- C5 as stated fails: a second deregistration of the same channel is not guarded; the
worker deletes the key and dies closing the closed channel, and the registration that
follows is never handled. -/
theorem second_deregister_panics :
    listen promptRuntime 0 NewServer
        [.NewClients (.ref 1), .ClosedClients (.ref 1), .ClosedClients (.ref 1),
          .NewClients (.ref 2)] =
      .panic { TotalClients := [], closed := [1], delivered := [] } := by
  decide

/-! ## Closed channels and the map -/

theorem HoldsOpen.mono (s : Event) (g1 g2 : List ClientChan) (h : HoldsOpen s g1)
    (hsub : ∀ c ∈ g1, c ∈ g2) : HoldsOpen s g2 :=
  ⟨h.1, h.2.1, fun id hid => hsub _ (h.2.2.1 id hid), h.2.2.2⟩

theorem holdsOpen_register (s : Event) (gone : List ClientChan) (c : ClientChan)
    (h : HoldsOpen s gone) (hc : c ∉ gone) :
    HoldsOpen { s with TotalClients := mapSet c s.TotalClients } gone := by
  refine ⟨mapSet_nodup c _ h.1, h.2.1, h.2.2.1, ?_⟩
  intro id hid
  rcases (mem_mapSet c _ _).mp hid with heq | hmem
  · intro hcl
    exact hc (heq ▸ h.2.2.1 id hcl)
  · exact h.2.2.2 id hmem

theorem holdsOpen_deregister (rt : Runtime) (k : Nat) (s : Event) (gone : List ClientChan)
    (c : ClientChan) (h : HoldsOpen s gone) :
    HoldsOpen (listenStep rt k s (.ClosedClients c)).state (c :: gone) := by
  have hpanic : HoldsOpen { s with TotalClients := mapDelete c s.TotalClients } (c :: gone) :=
    ⟨mapDelete_nodup c _ h.1, h.2.1, fun id hid => List.mem_cons_of_mem _ (h.2.2.1 id hid),
      fun id hid => h.2.2.2 id ((mem_mapDelete c _ _ h.1).mp hid).2⟩
  cases c with
  | nil => exact hpanic
  | ref j =>
    by_cases hj : j ∈ s.closed
    · simp only [listenStep, chanClose, hj, if_true, Outcome.state]
      exact hpanic
    · simp only [listenStep, chanClose, hj, if_false, Outcome.state]
      refine ⟨mapDelete_nodup _ _ h.1, List.nodup_cons.mpr ⟨hj, h.2.1⟩, ?_, ?_⟩
      · intro id hid
        rcases List.mem_cons.mp hid with heq | hmem
        · subst heq; exact List.mem_cons_self _ _
        · exact List.mem_cons_of_mem _ (h.2.2.1 id hmem)
      · intro id hid
        have hm := (mem_mapDelete (.ref j) _ _ h.1).mp hid
        intro hcl
        rcases List.mem_cons.mp hcl with heq | hmem
        · subst heq; exact hm.1 rfl
        · exact h.2.2.2 id hm.2 hmem

theorem holdsOpen_message (rt : Runtime) (k : Nat) (s : Event) (gone : List ClientChan)
    (m : String) (h : HoldsOpen s gone) :
    HoldsOpen (listenStep rt k s (.Message m)).state gone := by
  simp only [listenStep, broadcast_state]
  exact h

theorem listen_holdsOpen (rt : Runtime) (k : Nat) (s : Event) (gone : List ClientChan)
    (evs : List Select) (h : HoldsOpen s gone) (hev : neverReregisters gone evs = true) :
    HoldsOpen (listen rt k s evs).state (gone ++ deregisters evs) := by
  induction evs generalizing k s gone with
  | nil => simpa [listen, Outcome.state, deregisters] using h
  | cons e es ih =>
    rw [listen_cons_state]
    cases e with
    | NewClients c =>
      simp only [neverReregisters, Bool.and_eq_true, decide_eq_true_eq] at hev
      have h1 := holdsOpen_register s gone c h hev.1
      simp only [listenStep, deregisters]
      exact ih _ _ _ h1 hev.2
    | ClosedClients c =>
      simp only [neverReregisters] at hev
      have h1 := holdsOpen_deregister rt k s gone c h
      have hsub : ∀ es1 : List Select, ∀ x ∈ (c :: gone) ++ deregisters es1,
          x ∈ gone ++ deregisters (Select.ClosedClients c :: es1) := by
        intro es1 x hx
        simp only [deregisters, List.mem_append, List.mem_cons] at hx ⊢
        tauto
      cases hstep : listenStep rt k s (.ClosedClients c) with
      | ok s1 =>
        rw [hstep] at h1
        exact (ih _ _ _ h1 hev).mono _ _ _ (hsub es)
      | panic s1 =>
        rw [hstep] at h1
        exact h1.mono _ _ _ (fun x hx => hsub es x (List.mem_append_left _ hx))
      | blocked s1 =>
        rw [hstep] at h1
        exact h1.mono _ _ _ (fun x hx => hsub es x (List.mem_append_left _ hx))
    | Message m =>
      simp only [neverReregisters] at hev
      have h1 := holdsOpen_message rt k s gone m h
      simp only [deregisters]
      cases hstep : listenStep rt k s (.Message m) with
      | ok s1 =>
        rw [hstep] at h1
        exact ih _ _ _ h1 hev
      | panic s1 =>
        rw [hstep] at h1
        exact h1.mono _ _ _ (fun x hx => List.mem_append_left _ hx)
      | blocked s1 =>
        rw [hstep] at h1
        exact h1.mono _ _ _ (fun x hx => List.mem_append_left _ hx)

theorem closesOnce_of_append (gone : List ClientChan) (a b : List Select)
    (h : closesOnce gone (a ++ b) = true) : closesOnce gone a = true := by
  induction a generalizing gone with
  | nil => rfl
  | cons e es ih =>
    cases e with
    | NewClients c =>
      simp only [List.cons_append, closesOnce, Bool.and_eq_true] at h ⊢
      exact ⟨h.1, ih _ h.2⟩
    | ClosedClients c =>
      simp only [List.cons_append, closesOnce, Bool.and_eq_true] at h ⊢
      exact ⟨h.1, ih _ h.2⟩
    | Message m =>
      simp only [List.cons_append, closesOnce] at h ⊢
      exact ih _ h

theorem closesOnce_neverReregisters (gone : List ClientChan) (evs : List Select)
    (h : closesOnce gone evs = true) : neverReregisters gone evs = true := by
  induction evs generalizing gone with
  | nil => rfl
  | cons e es ih =>
    cases e with
    | NewClients c =>
      simp only [closesOnce, neverReregisters, Bool.and_eq_true] at h ⊢
      exact ⟨h.1.2, ih _ h.2⟩
    | ClosedClients c =>
      simp only [closesOnce, neverReregisters, Bool.and_eq_true] at h ⊢
      exact ih _ h.2
    | Message m =>
      simp only [closesOnce, neverReregisters] at h ⊢
      exact ih _ h

theorem message_of_open (rt : Runtime) (k : Nat) (s : Event) (m : String)
    (hn : s.TotalClients.Nodup) (ho : ∀ c ∈ s.TotalClients, c ≠ .nil ∧ isOpen s c) :
    (∀ s1, listenStep rt k s (.Message m) ≠ .panic s1) ∧
    (∀ s1, listenStep rt k s (.Message m) = .ok s1 →
      s1.TotalClients = s.TotalClients ∧ s1.closed = s.closed) ∧
    ((∀ id, rt.receiving k id = true) → ∃ s1, listenStep rt k s (.Message m) = .ok s1) := by
  have hperm := rt.rangeOrder_perm k s.TotalClients
  refine ⟨?_, ?_, ?_⟩
  · intro s1 hp
    simp only [listenStep] at hp
    rw [broadcast_eq] at hp
    cases hd : (List.dropWhile (completes s.closed (rt.receiving k))
        (rt.rangeOrder k s.TotalClients)).head? with
    | none => rw [hd] at hp; cases hp
    | some c =>
      rw [hd] at hp
      have hcm : c ∈ s.TotalClients := by
        apply hperm.mem_iff.mp
        exact (List.dropWhile_sublist _).subset (List.mem_of_mem_head? hd)
      have hopen := (ho c hcm).2
      cases c with
      | nil => simp [chanSend] at hp
      | ref id =>
        have hc : id ∉ s.closed := hopen
        by_cases hr : rt.receiving k id = true
        · simp [chanSend, hc, hr] at hp
        · simp [chanSend, hc, hr] at hp
  · intro s1 hs1
    have h1 := broadcast_state (rt.receiving k) m (rt.rangeOrder k s.TotalClients) s
    simp only [listenStep] at hs1
    rw [hs1] at h1
    simp only [Outcome.state] at h1
    rw [h1]
    exact ⟨rfl, rfl⟩
  · intro hrecv
    obtain ⟨s1, hs1, -⟩ := publish_all_complete rt k s m hn (fun c hc => by
      obtain ⟨hnil, hopen⟩ := ho c hc
      cases c with
      | nil => exact (hnil rfl).elim
      | ref id =>
        have hc1 : id ∉ s.closed := hopen
        simp [completes, chanSend, hc1, hrecv])
    exact ⟨s1, hs1⟩

theorem listen_closesOnce (rt : Runtime) (k : Nat) (s : Event) (gone : List ClientChan)
    (evs : List Select) (h : HoldsOpen s gone) (hc : ClosedIs s gone)
    (hev : closesOnce gone evs = true) :
    (∀ s1, listen rt k s evs ≠ .panic s1) ∧
    (∀ s1, listen rt k s evs = .ok s1 →
      ClosedIs s1 ((deregisters evs).reverse ++ gone)) ∧
    ((∀ j id, rt.receiving j id = true) → ∃ s1, listen rt k s evs = .ok s1) := by
  induction evs generalizing k s gone with
  | nil =>
    refine ⟨fun s1 hp => (by cases hp), ?_, fun _ => ⟨s, rfl⟩⟩
    intro s1 hs1
    simp only [listen, Outcome.ok.injEq] at hs1
    subst hs1
    simpa [deregisters] using hc
  | cons e es ih =>
    cases e with
    | NewClients c =>
      simp only [closesOnce, Bool.and_eq_true, decide_eq_true_eq] at hev
      have h1 := holdsOpen_register s gone c h hev.1.2
      have hc1 : ClosedIs { s with TotalClients := mapSet c s.TotalClients } gone := by
        refine ⟨hc.1, hc.2.1, ?_⟩
        intro hin
        rcases (mem_mapSet c _ _).mp hin with heq | hm
        · exact hev.1.1 heq.symm
        · exact hc.2.2 hm
      have := ih (k + 1) _ gone h1 hc1 hev.2
      simpa [listen_cons_state, listenStep, deregisters] using this
    | ClosedClients c =>
      simp only [closesOnce, Bool.and_eq_true, decide_eq_true_eq] at hev
      cases c with
      | nil => exact (hev.1.1 rfl).elim
      | ref id =>
        have hopen : id ∉ s.closed := by
          intro hin
          apply hev.1.2
          rw [← hc.1]
          exact List.mem_map_of_mem _ hin
        have hstep : listenStep rt k s (.ClosedClients (.ref id)) =
            .ok { TotalClients := mapDelete (.ref id) s.TotalClients, closed := id :: s.closed,
                  delivered := s.delivered } := by
          simp only [listenStep, chanClose, hopen, if_false]
        have h1 := holdsOpen_deregister rt k s gone (.ref id) h
        rw [hstep] at h1
        simp only [Outcome.state] at h1
        have hc1 : ClosedIs
            { TotalClients := mapDelete (.ref id) s.TotalClients, closed := id :: s.closed,
              delivered := s.delivered } (.ref id :: gone) := by
          refine ⟨by simp [hc.1], List.nodup_cons.mpr ⟨hev.1.2, hc.2.1⟩, ?_⟩
          intro hin
          exact hc.2.2 (List.mem_of_mem_erase hin)
        have := ih (k + 1) _ (.ref id :: gone) h1 hc1 hev.2
        rw [listen_cons_state, hstep]
        simpa [deregisters] using this
    | Message m =>
      simp only [closesOnce] at hev
      have hkeys : ∀ c ∈ s.TotalClients, c ≠ .nil ∧ isOpen s c := by
        intro c hcm
        cases c with
        | nil => exact (hc.2.2 hcm).elim
        | ref id => exact ⟨by simp, h.2.2.2 id hcm⟩
      obtain ⟨hnp, hok, hall⟩ := message_of_open rt k s m h.1 hkeys
      rw [listen_cons_state]
      cases hstep : listenStep rt k s (.Message m) with
      | ok s1 =>
        obtain ⟨hreg, hcl⟩ := hok s1 hstep
        have h1 : HoldsOpen s1 gone := by
          have := holdsOpen_message rt k s gone m h
          rw [hstep] at this
          exact this
        have hc1 : ClosedIs s1 gone := by
          unfold ClosedIs
          rw [hreg, hcl]
          exact hc
        have := ih (k + 1) s1 gone h1 hc1 hev
        simpa [deregisters] using this
      | panic s1 => exact (hnp s1 hstep).elim
      | blocked s1 =>
        refine ⟨fun s2 hp => (by cases hp), fun s2 hp => (by cases hp), ?_⟩
        intro hrecv
        obtain ⟨s2, hs2⟩ := hall (hrecv k)
        rw [hstep] at hs2
        cases hs2

/-- C6, as the code has it: for every sequence of values in which every channel is a
channel object, no channel is registered again after its deregistration and no channel is
deregistered twice, after each value the worker has executed no fatal close or send; no
key of `TotalClients` is a closed channel, however the run ends; whenever the worker has
handled the values so far, each channel whose deregistration was handled has been closed
exactly once and no other channel has been closed; and when every consumer receives, the
worker does handle every value. -/
theorem registry_holds_only_open (rt : Runtime) (pre post : List Select)
    (h : closesOnce [] (pre ++ post) = true) :
    (∀ s, listen rt 0 NewServer pre ≠ .panic s) ∧
    (∀ id, ClientChan.ref id ∈ (listen rt 0 NewServer pre).state.TotalClients →
      id ∉ (listen rt 0 NewServer pre).state.closed) ∧
    (∀ s, listen rt 0 NewServer pre = .ok s →
      ∀ id, s.closed.count id = if ClientChan.ref id ∈ deregisters pre then 1 else 0) ∧
    ((∀ k id, rt.receiving k id = true) → ∃ s, listen rt 0 NewServer pre = .ok s) := by
  have hpre := closesOnce_of_append [] pre post h
  have h0 : HoldsOpen NewServer [] := by
    simp [HoldsOpen, NewServer]
  have hc0 : ClosedIs NewServer [] := by
    simp [ClosedIs, NewServer]
  have hopen := listen_holdsOpen rt 0 NewServer [] pre h0
    (closesOnce_neverReregisters [] pre hpre)
  obtain ⟨hnp, hok, hall⟩ := listen_closesOnce rt 0 NewServer [] pre h0 hc0 hpre
  refine ⟨hnp, hopen.2.2.2, ?_, hall⟩
  intro s hs id
  obtain ⟨hmap, hnd, -⟩ := hok s hs
  simp only [List.append_nil] at hmap hnd
  have hinj : Function.Injective ClientChan.ref := by
    intro x y hxy
    injection hxy
  rw [← List.count_map_of_injective s.closed ClientChan.ref hinj id, hmap]
  by_cases hmem : ClientChan.ref id ∈ deregisters pre
  · rw [if_pos hmem]
    exact List.count_eq_one_of_mem hnd (List.mem_reverse.mpr hmem)
  · rw [if_neg hmem]
    exact List.count_eq_zero_of_not_mem (fun hin => hmem (List.mem_reverse.mp hin))

theorem registry_holds_only_open_witness :
    (∀ s, listen promptRuntime 0 NewServer
        [.NewClients (.ref 1), .NewClients (.ref 2), .ClosedClients (.ref 1),
          .Message "m"] ≠ .panic s) ∧
    (∃ s, listen promptRuntime 0 NewServer
        [.NewClients (.ref 1), .NewClients (.ref 2), .ClosedClients (.ref 1),
          .Message "m"] = .ok s) ∧
    (∀ id, ({ TotalClients := [.ref 2], closed := [1], delivered := [(2, "m")] } :
        Event).closed.count id =
      if ClientChan.ref id ∈ deregisters
        [.NewClients (.ref 1), .NewClients (.ref 2), .ClosedClients (.ref 1),
          .Message "m"] then 1 else 0) :=
  ⟨(registry_holds_only_open promptRuntime
      [.NewClients (.ref 1), .NewClients (.ref 2), .ClosedClients (.ref 1), .Message "m"]
      [.ClosedClients (.ref 2)] (by decide)).1,
    (registry_holds_only_open promptRuntime
      [.NewClients (.ref 1), .NewClients (.ref 2), .ClosedClients (.ref 1), .Message "m"]
      [.ClosedClients (.ref 2)] (by decide)).2.2.2 (fun _ _ => rfl),
    (registry_holds_only_open promptRuntime
      [.NewClients (.ref 1), .NewClients (.ref 2), .ClosedClients (.ref 1), .Message "m"]
      [.ClosedClients (.ref 2)] (by decide)).2.2.1
      { TotalClients := [.ref 2], closed := [1], delivered := [(2, "m")] } (by decide)⟩

/-- C6 as stated fails, in two ways: a channel registered again after its deregistration is
a closed channel that is a key of `TotalClients`; and when a channel is deregistered a second
time the worker executes a second close on it, which is fatal. -/
theorem closed_channel_in_registry :
    listen promptRuntime 0 NewServer
        [.NewClients (.ref 1), .ClosedClients (.ref 1), .NewClients (.ref 1)] =
      .ok { TotalClients := [.ref 1], closed := [1], delivered := [] } ∧
    listen promptRuntime 0 NewServer
        [.NewClients (.ref 1), .ClosedClients (.ref 1), .ClosedClients (.ref 1)] =
      .panic { TotalClients := [], closed := [1], delivered := [] } := by
  decide

/-- C7: in every hub state reached from `NewServer`, registering a channel that is already
a key of `TotalClients` leaves the hub state as it was (the map assignment does not insert
the key a second time), the key occurs once in the map, and when every key drains, the
publish handled next delivers its message to that channel exactly once. -/
theorem register_is_idempotent (rt : Runtime) (evs : List Select) (s : Event)
    (c : ClientChan) (k : Nat) (hs : listen rt 0 NewServer evs = .ok s)
    (hc : c ∈ s.TotalClients) :
    listenStep rt k s (.NewClients c) = .ok s ∧ s.TotalClients.count c = 1 ∧
    ∀ m, (∀ d ∈ s.TotalClients, drains rt (k + 1) s d) →
      ∃ id s1, c = .ref id ∧
        listen rt k s [.NewClients c, .Message m] = .ok s1 ∧
        s1.TotalClients = s.TotalClients ∧
        received s1 id = received s id ++ [m] := by
  have hn := reachable_nodup rt evs s hs
  have hstep : listenStep rt k s (.NewClients c) = .ok s := by
    simp [listenStep, mapSet, hc]
  refine ⟨hstep, List.count_eq_one_of_mem hn hc, ?_⟩
  intro m hd
  obtain ⟨s1, hs1, hreg, -, -⟩ := publish_all_complete rt (k + 1) s m hn
    (fun d hd1 => drains_completes rt _ s d (hd d hd1))
  obtain ⟨id, hid, hr⟩ := publish_ok_received rt (k + 1) s s1 m c hn hc hs1
  refine ⟨id, s1, hid, ?_, hreg, hr⟩
  rw [listen_cons_state, hstep]
  simp only [listen_cons_state, hs1, listen]

theorem register_is_idempotent_witness :
    listenStep promptRuntime 7 { TotalClients := [.ref 1, .ref 2], closed := [], delivered := [] }
        (.NewClients (.ref 2)) =
      .ok { TotalClients := [.ref 1, .ref 2], closed := [], delivered := [] } :=
  (register_is_idempotent promptRuntime [.NewClients (.ref 1), .NewClients (.ref 2)]
    { TotalClients := [.ref 1, .ref 2], closed := [], delivered := [] } (.ref 2) 7
    (by decide) (by decide)).1

/-! ## A send that never completes -/

theorem stalls_not_completes (rt : Runtime) (k : Nat) (s : Event) (c : ClientChan)
    (h : stalls rt k s c) : completes s.closed (rt.receiving k) c = false := by
  cases c with
  | nil => simp [completes, chanSend]
  | ref id => simp [completes, chanSend, h.1, h.2]

theorem stalls_of_open_not_completes (rt : Runtime) (k : Nat) (s : Event) (c : ClientChan)
    (ho : isOpen s c) (h : completes s.closed (rt.receiving k) c = false) :
    stalls rt k s c ∧ chanSend s.closed (rt.receiving k) c = .blocks := by
  cases c with
  | nil => exact ⟨trivial, rfl⟩
  | ref id =>
    have hc : id ∉ s.closed := ho
    by_cases hr : rt.receiving k id = true
    · simp [completes, chanSend, hc, hr] at h
    · exact ⟨⟨hc, by simpa using hr⟩, by simp [chanSend, hc, hr]⟩

theorem broadcast_blocked (recv : Nat → Bool) (m : String) (s : Event)
    (pre post : List ClientChan) (c1 : ClientChan)
    (hpre : ∀ d ∈ pre, completes s.closed recv d = true)
    (hc1 : chanSend s.closed recv c1 = .blocks) :
    broadcast recv m (pre ++ c1 :: post) s =
      .blocked { s with delivered := s.delivered ++ pre.filterMap (stamp m) } := by
  have hnot : completes s.closed recv c1 = false := by simp [completes, hc1]
  have htake : (pre ++ c1 :: post).takeWhile (completes s.closed recv) = pre := by
    rw [List.takeWhile_append_of_pos hpre]
    simp [List.takeWhile_cons, hnot]
  have hdrop : (pre ++ c1 :: post).dropWhile (completes s.closed recv) = c1 :: post := by
    rw [List.dropWhile_append_of_pos hpre]
    simp [List.dropWhile_cons, hnot]
  rw [broadcast_eq, hdrop, broadcast_state, htake]
  simp [hc1]

/-- C9: in a hub state reached from `NewServer`, when a key of `TotalClients` stalls (it is
nil, or an open unbuffered channel whose consumer is not receiving), handling `Message m`
does not complete. When moreover every key of the map is open, the worker parks in the send
to the first stalled key met by the iteration: the keys visited before it have received `m`,
that key and the keys the iteration has not reached have received nothing new, and whatever
values follow, none of them is handled. -/
theorem stalled_subscriber_blocks_worker (rt : Runtime) (evs : List Select) (s : Event)
    (m : String) (c : ClientChan) (hs : listen rt 0 NewServer evs = .ok s)
    (hc : c ∈ s.TotalClients) (hst : stalls rt evs.length s c) :
    (∀ s1, listen rt 0 NewServer (evs ++ [.Message m]) ≠ .ok s1) ∧
    ((∀ d ∈ s.TotalClients, isOpen s d) →
      ∃ pre c1 post, rt.rangeOrder evs.length s.TotalClients = pre ++ c1 :: post ∧
        (∀ d ∈ pre, drains rt evs.length s d) ∧ stalls rt evs.length s c1 ∧
        (∀ rest, listen rt 0 NewServer (evs ++ .Message m :: rest) =
          .blocked { s with delivered := s.delivered ++ pre.filterMap (stamp m) }) ∧
        (∀ id, ClientChan.ref id ∈ pre →
          received { s with delivered := s.delivered ++ pre.filterMap (stamp m) } id =
            received s id ++ [m]) ∧
        (∀ id, ClientChan.ref id ∈ c1 :: post →
          received { s with delivered := s.delivered ++ pre.filterMap (stamp m) } id =
            received s id)) := by
  have hn := reachable_nodup rt evs s hs
  have hperm := rt.rangeOrder_perm evs.length s.TotalClients
  have hcl : c ∈ rt.rangeOrder evs.length s.TotalClients := hperm.mem_iff.mpr hc
  have hnc := stalls_not_completes rt _ s c hst
  constructor
  · intro s1 h1
    rw [listen_snoc rt NewServer s evs _ hs] at h1
    have := broadcast_ok_inv _ _ _ _ _ h1 c hcl
    rw [hnc] at this
    cases this
  · intro hopen
    have hdrop : (rt.rangeOrder evs.length s.TotalClients).dropWhile
        (completes s.closed (rt.receiving evs.length)) ≠ [] := by
      intro hnil
      have := List.dropWhile_eq_nil_iff.mp hnil c hcl
      rw [hnc] at this
      cases this
    obtain ⟨c1, post, hcons⟩ := List.exists_cons_of_ne_nil hdrop
    have hsplit := List.takeWhile_append_dropWhile
      (completes s.closed (rt.receiving evs.length)) (rt.rangeOrder evs.length s.TotalClients)
    rw [hcons] at hsplit
    have hpre : ∀ d ∈ (rt.rangeOrder evs.length s.TotalClients).takeWhile
        (completes s.closed (rt.receiving evs.length)),
        completes s.closed (rt.receiving evs.length) d = true :=
      fun d hd => List.mem_takeWhile_imp hd
    have hc1not : completes s.closed (rt.receiving evs.length) c1 = false := by
      have := List.head_dropWhile_not (completes s.closed (rt.receiving evs.length))
        (rt.rangeOrder evs.length s.TotalClients) hdrop
      simpa [hcons] using this
    have hc1mem : c1 ∈ s.TotalClients := by
      apply hperm.mem_iff.mp
      rw [← hsplit]
      simp
    obtain ⟨hc1st, hc1send⟩ := stalls_of_open_not_completes rt _ s c1 (hopen c1 hc1mem) hc1not
    have hnd : (List.takeWhile (completes s.closed (rt.receiving evs.length))
        (rt.rangeOrder evs.length s.TotalClients) ++ c1 :: post).Nodup := by
      rw [hsplit]; exact hperm.nodup_iff.mpr hn
    refine ⟨_, c1, post, hsplit.symm, fun d hd => completes_drains rt _ s d (hpre d hd),
      hc1st, ?_, ?_, ?_⟩
    · intro rest
      have hb := broadcast_blocked _ m s _ post c1 hpre hc1send
      rw [hsplit] at hb
      rw [listen_append, hs]
      simp only [Nat.zero_add, listen_cons_state, listenStep, hb]
    · intro id hid
      rw [received_append, received_stamp,
        List.count_eq_one_of_mem (List.Nodup.of_append_left hnd) hid]
      rfl
    · intro id hid
      have hnot : ClientChan.ref id ∉ List.takeWhile
          (completes s.closed (rt.receiving evs.length))
          (rt.rangeOrder evs.length s.TotalClients) :=
        fun hin => (List.nodup_append.mp hnd).2.2 hin hid
      rw [received_append, received_stamp, List.count_eq_zero_of_not_mem hnot]
      simp


theorem stalled_subscriber_blocks_worker_witness :
    (∀ s1, listen (runtimeOf (fun id => id != 2)) 0 NewServer
        ([.NewClients (.ref 1), .NewClients (.ref 2), .NewClients (.ref 3)] ++
          [.Message "m"]) ≠ .ok s1) ∧
    listen (runtimeOf (fun id => id != 2)) 0 NewServer
        [.NewClients (.ref 1), .NewClients (.ref 2), .NewClients (.ref 3), .Message "m",
          .ClosedClients (.ref 2)] =
      .blocked { TotalClients := [.ref 1, .ref 2, .ref 3], closed := [],
                 delivered := [(1, "m")] } :=
  ⟨(stalled_subscriber_blocks_worker (runtimeOf (fun id => id != 2))
      [.NewClients (.ref 1), .NewClients (.ref 2), .NewClients (.ref 3)]
      { TotalClients := [.ref 1, .ref 2, .ref 3], closed := [], delivered := [] } "m" (.ref 2)
      (by decide) (by decide) (by decide)).1, by decide⟩

/-! ## The discipline of `serveHTTP` -/

theorem obeys_of_append (seen gone : List ClientChan) (a b : List Select)
    (h : obeys seen gone (a ++ b) = true) : obeys seen gone a = true := by
  induction a generalizing seen gone with
  | nil => rfl
  | cons e es ih =>
    cases e with
    | NewClients c =>
      simp only [List.cons_append, obeys, Bool.and_eq_true] at h ⊢
      exact ⟨h.1, ih _ _ h.2⟩
    | ClosedClients c =>
      simp only [List.cons_append, obeys, Bool.and_eq_true] at h ⊢
      exact ⟨h.1, ih _ _ h.2⟩
    | Message m =>
      simp only [List.cons_append, obeys] at h ⊢
      exact ih _ _ h

theorem tracks_register (s : Event) (seen gone : List ClientChan) (c : ClientChan)
    (h : Tracks s seen gone) (hnil : c ≠ .nil) (hc : c ∉ seen) :
    Tracks { s with TotalClients := mapSet c s.TotalClients } (c :: seen) gone := by
  obtain ⟨hn, hmem, hcl, hnn, hsub⟩ := h
  refine ⟨mapSet_nodup c _ hn, ?_, hcl, ?_, fun x hx => List.mem_cons_of_mem _ (hsub x hx)⟩
  · intro x
    rw [mem_mapSet, hmem, List.mem_cons]
    constructor
    · rintro (heq | ⟨h1, h2⟩)
      · subst heq
        exact ⟨Or.inl rfl, fun hg => hc (hsub _ hg)⟩
      · exact ⟨Or.inr h1, h2⟩
    · rintro ⟨heq | h1, h2⟩
      · exact Or.inl heq
      · exact Or.inr ⟨h1, h2⟩
  · intro hin
    rcases List.mem_cons.mp hin with heq | hmem1
    · exact hnil heq.symm
    · exact hnn hmem1

theorem tracks_deregister (rt : Runtime) (k : Nat) (s : Event) (seen gone : List ClientChan)
    (c : ClientChan) (h : Tracks s seen gone) (hc : c ∈ seen) (hg : c ∉ gone) :
    ∃ s1, listenStep rt k s (.ClosedClients c) = .ok s1 ∧ Tracks s1 seen (c :: gone) := by
  obtain ⟨hn, hmem, hcl, hnn, hsub⟩ := h
  cases c with
  | nil => exact (hnn hc).elim
  | ref id =>
    have hopen : id ∉ s.closed := fun hin => hg ((hcl id).mp hin)
    have hstep : listenStep rt k s (.ClosedClients (.ref id)) =
        .ok { TotalClients := mapDelete (.ref id) s.TotalClients, closed := id :: s.closed,
              delivered := s.delivered } := by
      simp only [listenStep, chanClose, hopen, if_false]
    refine ⟨_, hstep, mapDelete_nodup _ _ hn, ?_, ?_, hnn, ?_⟩
    · intro x
      rw [mem_mapDelete _ _ _ hn, hmem, List.mem_cons]
      tauto
    · intro j
      rw [List.mem_cons, List.mem_cons, hcl]
      constructor
      · rintro (heq | h1)
        · exact Or.inl (by rw [heq])
        · exact Or.inr h1
      · rintro (heq | h1)
        · exact Or.inl (by injection heq)
        · exact Or.inr h1
    · intro x hx
      rcases List.mem_cons.mp hx with heq | h1
      · rw [heq]; exact hc
      · exact hsub x h1

theorem tracks_drains (s : Event) (seen gone : List ClientChan)
    (h : Tracks s seen gone) (c : ClientChan) (hc : c ∈ s.TotalClients) :
    c ≠ .nil ∧ isOpen s c := by
  obtain ⟨hn, hmem, hcl, hnn, hsub⟩ := h
  have hsg := (hmem c).mp hc
  cases c with
  | nil => exact (hnn hsg.1).elim
  | ref id => exact ⟨by simp, fun hin => hsg.2 ((hcl id).mp hin)⟩

theorem tracks_message (rt : Runtime) (k : Nat) (s : Event) (seen gone : List ClientChan)
    (m : String) (h : Tracks s seen gone) :
    (∀ s1, listenStep rt k s (.Message m) ≠ .panic s1) ∧
    (∀ s1, listenStep rt k s (.Message m) = .ok s1 → Tracks s1 seen gone) ∧
    ((∀ id, rt.receiving k id = true) → ∃ s1, listenStep rt k s (.Message m) = .ok s1) := by
  have hperm := rt.rangeOrder_perm k s.TotalClients
  refine ⟨?_, ?_, ?_⟩
  · intro s1 hp
    simp only [listenStep] at hp
    rw [broadcast_eq] at hp
    cases hd : (List.dropWhile (completes s.closed (rt.receiving k))
        (rt.rangeOrder k s.TotalClients)).head? with
    | none => rw [hd] at hp; cases hp
    | some c =>
      rw [hd] at hp
      have hcm : c ∈ s.TotalClients := by
        apply hperm.mem_iff.mp
        have h1 := List.mem_of_mem_head? hd
        exact (List.dropWhile_sublist _).subset h1
      have hopen := (tracks_drains s seen gone h c hcm).2
      cases c with
      | nil => simp [chanSend] at hp
      | ref id =>
        have hc : id ∉ s.closed := hopen
        by_cases hr : rt.receiving k id = true
        · simp [chanSend, hc, hr] at hp
        · simp [chanSend, hc, hr] at hp
  · intro s1 hs1
    have h1 := broadcast_state (rt.receiving k) m (rt.rangeOrder k s.TotalClients) s
    simp only [listenStep] at hs1
    rw [hs1] at h1
    simp only [Outcome.state] at h1
    rw [h1]
    exact h
  · intro hrecv
    obtain ⟨s1, hs1, -⟩ := publish_all_complete rt k s m h.1 (fun c hc => by
      obtain ⟨hnil, hopen⟩ := tracks_drains s seen gone h c hc
      cases c with
      | nil => exact (hnil rfl).elim
      | ref id =>
        have hc1 : id ∉ s.closed := hopen
        simp [completes, chanSend, hc1, hrecv])
    exact ⟨s1, hs1⟩

theorem listen_tracks (rt : Runtime) (k : Nat) (s : Event) (seen gone : List ClientChan)
    (evs : List Select) (h : Tracks s seen gone) (hev : obeys seen gone evs = true) :
    (∀ s1, listen rt k s evs ≠ .panic s1) ∧
    (∀ s1, listen rt k s evs = .ok s1 →
      Tracks s1 ((registers evs).reverse ++ seen) ((deregisters evs).reverse ++ gone)) ∧
    ((∀ j id, rt.receiving j id = true) → ∃ s1, listen rt k s evs = .ok s1) := by
  induction evs generalizing k s seen gone with
  | nil =>
    refine ⟨fun s1 hp => (by cases hp), ?_, fun _ => ⟨s, rfl⟩⟩
    intro s1 hs1
    simp only [listen, Outcome.ok.injEq] at hs1
    subst hs1
    simpa [registers, deregisters] using h
  | cons e es ih =>
    cases e with
    | NewClients c =>
      simp only [obeys, Bool.and_eq_true, decide_eq_true_eq] at hev
      have h1 := tracks_register s seen gone c h hev.1.1 hev.1.2
      have := ih (k + 1) _ (c :: seen) gone h1 hev.2
      simpa [listen_cons_state, listenStep, registers, deregisters] using this
    | ClosedClients c =>
      simp only [obeys, Bool.and_eq_true, decide_eq_true_eq] at hev
      obtain ⟨s1, hs1, h1⟩ := tracks_deregister rt k s seen gone c h hev.1.1 hev.1.2
      have := ih (k + 1) s1 seen (c :: gone) h1 hev.2
      rw [listen_cons_state, hs1]
      simpa [registers, deregisters] using this
    | Message m =>
      simp only [obeys] at hev
      obtain ⟨hnp, hok, hall⟩ := tracks_message rt k s seen gone m h
      rw [listen_cons_state]
      cases hstep : listenStep rt k s (.Message m) with
      | ok s1 =>
        have := ih (k + 1) s1 seen gone (hok s1 hstep) hev
        simpa [registers, deregisters] using this
      | panic s1 => exact (hnp s1 hstep).elim
      | blocked s1 =>
        refine ⟨fun s2 hp => (by cases hp), fun s2 hp => (by cases hp), ?_⟩
        intro hrecv
        obtain ⟨s2, hs2⟩ := hall (hrecv k)
        rw [hstep] at hs2
        cases hs2

/-- C10: for every sequence of values that obeys the discipline of `serveHTTP` (every
registered channel is a channel object never registered before, every deregistered channel
was registered before and not yet deregistered), after each value the worker has not
executed a fatal operation (no close of a closed or nil channel, no send on a closed
channel); whenever it has handled the values so far, `TotalClients` holds exactly the
channels whose registration was handled and whose deregistration was not, all of them open
channel objects, and the closed channels are exactly the deregistered ones; and when every
consumer receives, the worker does handle every value. -/
theorem adapter_discipline_is_safe (rt : Runtime) (pre post : List Select)
    (h : obeys [] [] (pre ++ post) = true) :
    (∀ s, listen rt 0 NewServer pre ≠ .panic s) ∧
    (∀ s, listen rt 0 NewServer pre = .ok s →
      (∀ c, c ∈ s.TotalClients ↔ c ∈ registers pre ∧ c ∉ deregisters pre) ∧
      (∀ c ∈ s.TotalClients, c ≠ .nil ∧ isOpen s c) ∧
      (∀ id, id ∈ s.closed ↔ ClientChan.ref id ∈ deregisters pre)) ∧
    ((∀ k id, rt.receiving k id = true) → ∃ s, listen rt 0 NewServer pre = .ok s) := by
  have h0 : Tracks NewServer [] [] := by
    simp [Tracks, NewServer]
  obtain ⟨hnp, hok, hall⟩ := listen_tracks rt 0 NewServer [] [] pre h0
    (obeys_of_append [] [] pre post h)
  refine ⟨hnp, ?_, hall⟩
  intro s hs
  have ht := hok s hs
  refine ⟨?_, fun c hc => tracks_drains s _ _ ht c hc, ?_⟩
  · intro c
    have := ht.2.1 c
    simpa using this
  · intro id
    have := ht.2.2.1 id
    simpa using this

theorem adapter_discipline_is_safe_witness :
    (∀ s, listen promptRuntime 0 NewServer
        [.NewClients (.ref 1), .NewClients (.ref 2), .Message "a", .ClosedClients (.ref 1)] ≠
      .panic s) ∧
    (∃ s, listen promptRuntime 0 NewServer
        [.NewClients (.ref 1), .NewClients (.ref 2), .Message "a", .ClosedClients (.ref 1)] =
      .ok s) :=
  ⟨(adapter_discipline_is_safe promptRuntime
      [.NewClients (.ref 1), .NewClients (.ref 2), .Message "a", .ClosedClients (.ref 1)]
      [.Message "b", .ClosedClients (.ref 2)] (by decide)).1,
    (adapter_discipline_is_safe promptRuntime
      [.NewClients (.ref 1), .NewClients (.ref 2), .Message "a", .ClosedClients (.ref 1)]
      [.Message "b", .ClosedClients (.ref 2)] (by decide)).2.2 (fun _ _ => rfl)⟩

end IoTManager
